import Mathlib

/-!
Verification of the core of `wordle.py`, a solver for the Wordle
word-guessing game.  Words are modelled as lists of characters; the three
feedback values are modelled, as in the source, by the characters
`'h'`/`'e'`/`'n'`.  The recursive functions `give_feedback` and `prune`
are embedded with an explicit fuel argument (the recursion in the source
removes one position per call, so `word`-length respectively
`feedback`-length fuel always suffices; this is proved below), which keeps
every definition executable by kernel reduction.
-/

namespace Wordle

/-- A word: an ordered sequence of letters (a Python string). -/
abbrev Word := List Char

/-- `NOWHERE = "n"`: the letter does not appear anywhere in the word. -/
def NOWHERE : Char := 'n'

/-- `ELSEWHERE = "e"`: the letter appears in the word, but not here. -/
def ELSEWHERE : Char := 'e'

/-- `HERE = "h"`: the letter appears in this exact position. -/
def HERE : Char := 'h'

/-- `cut(s, i) = s[:i] + s[i+1:]`: remove position `i` from `s`. -/
def cut : List Char → Nat → List Char
  | [], _ => []
  | _ :: xs, 0 => xs
  | x :: xs, i + 1 => x :: cut xs i

/-- `s[:i] + [a] + s[i:]`: insert `a` at position `i` of `s` (used for the
`rest[:i] + [HERE] + rest[i:]` and `w[:i] + letter + w[i:]` expressions). -/
def ins : List Char → Nat → Char → List Char
  | xs, 0, a => a :: xs
  | [], _ + 1, a => [a]
  | x :: xs, i + 1, a => x :: ins xs i a

/-- `cut` agrees with the slicing expression `s[:i] + s[i+1:]`. -/
theorem cut_eq_slices (s : List Char) (i : Nat) :
    cut s i = s.take i ++ s.drop (i + 1) := by
  induction s generalizing i with
  | nil => simp [cut]
  | cons x xs ih =>
    cases i with
    | zero => simp [cut]
    | succ j => simp [cut, ih]

/-- `ins` agrees with the slicing expression `s[:i] + [a] + s[i:]`. -/
theorem ins_eq_slices (s : List Char) (i : Nat) (a : Char) :
    ins s i a = s.take i ++ a :: s.drop i := by
  induction s generalizing i with
  | nil => cases i <;> simp [ins]
  | cons x xs ih =>
    cases i with
    | zero => simp [ins]
    | succ j => simp [ins, ih]

/-- Index of the first position where word and guess carry the same letter:
the position at which `give_feedback`'s loop hits `gl == wl` and recurses
(`None` when the loop runs to completion). -/
def firstMatch : List Char → List Char → Option Nat
  | w :: ws, g :: gs =>
    if g = w then some 0 else (firstMatch ws gs).map Nat.succ
  | _, _ => none

/-- The final `out` list built by `give_feedback`'s loop when no position
matches exactly: `ELSEWHERE` when the guessed letter occurs anywhere in
`word`, else `NOWHERE`, over `zip(word, guess)`. -/
def fbNoMatch (word guess : List Char) : List Char :=
  (word.zip guess).map (fun p => if p.2 ∈ word then ELSEWHERE else NOWHERE)

/-- `give_feedback(word, guess)` with explicit fuel: scan `zip(word, guess)`;
at the first exact match at `i`, recurse on `(cut word i, cut guess i)` and
re-insert `HERE` at `i`; if no position matches, classify every position as
`ELSEWHERE`/`NOWHERE` by membership in the (current) `word`.  The fuel-0
branch is unreachable when the fuel is at least `word.length`. -/
def give_feedbackF : Nat → List Char → List Char → List Char
  | fuel, word, guess =>
    match firstMatch word guess with
    | some i =>
      match fuel with
      | 0 => []
      | fuel + 1 => ins (give_feedbackF fuel (cut word i) (cut guess i)) i HERE
    | none => fbNoMatch word guess

/-- `give_feedback(word, guess)` from the source: each recursive call removes
one position from `word`, so `word.length` fuel suffices. -/
def give_feedback (word guess : List Char) : List Char :=
  give_feedbackF word.length word guess

/-- First position (over `zip(guess, feedback)`) whose feedback is `HERE`,
paired with the guess letter there: where `prune`'s first loop recurses. -/
def firstHere : List Char → List Char → Option (Nat × Char)
  | g :: gs, r :: fs =>
    if r = HERE then some (0, g) else (firstHere gs fs).map (fun p => (p.1 + 1, p.2))
  | _, _ => none

/-- `prune`'s second loop (reached when the feedback holds no `HERE`):
walk `zip(guess, feedback)` with index `i`, dropping words that contain a
`NOWHERE` letter, and keeping for an `ELSEWHERE` letter only words that
contain it somewhere other than position `i`.  The source's
`assert result != HERE` is unreachable there; a `HERE` value simply
filters nothing here.  A Python `w[i]` with `i` out of range would raise;
it is modelled as a failed comparison (`w[i]? = some letter` is false),
which coincides with the source on the equal-length inputs of the
contract, where `i` is always in range. -/
def pruneNH : List Word → Nat → List Char → List Char → List Word
  | words, i, letter :: gs, result :: fs =>
    let words1 := if result = NOWHERE then words.filter (fun w => !(letter ∈ w : Bool)) else words
    let words2 := if result = ELSEWHERE then
        words1.filter (fun w => (letter ∈ w : Bool) && !(w[i]? == some letter)) else words1
    pruneNH words2 (i + 1) gs fs
  | words, _, _, _ => words

/-- `prune(words, guess, feedback)` with explicit fuel: find the first
`HERE` in the feedback; keep the words agreeing with the guess letter
there, remove that position from every survivor and from guess and
feedback, recurse, and re-insert the letter; with no `HERE` left, run the
`NOWHERE`/`ELSEWHERE` filters.  The fuel-0 branch is unreachable when the
fuel is at least `feedback.length`. -/
def pruneF : Nat → List Word → List Char → List Char → List Word
  | fuel, words, guess, feedback =>
    match firstHere guess feedback with
    | some (i, letter) =>
      match fuel with
      | 0 => words
      | fuel + 1 =>
        let consistent := words.filter (fun w => w[i]? == some letter)
        let reduced := consistent.map (fun w => cut w i)
        let pruned := pruneF fuel reduced (cut guess i) (cut feedback i)
        pruned.map (fun w => ins w i letter)
    | none => pruneNH words 0 guess feedback

/-- `prune(words, guess, feedback)` from the source: each recursive call
removes one position from `feedback`, so `feedback.length` fuel suffices. -/
def prune (words : List Word) (guess feedback : List Char) : List Word :=
  pruneF feedback.length words guess feedback

/-- One term of `guess_greedy`'s inner sum:
`len(prune(words, guess, give_feedback(w, guess)))`. -/
def pruneCount (words : List Word) (guess w : Word) : Nat :=
  (prune words guess (give_feedback w guess)).length

/-- `guess_greedy`'s inner loop with the early exit: accumulate the pruned
sizes over `words`, breaking as soon as the partial sum `s` exceeds
`minval`. -/
def scoreEarlyAux (words : List Word) (guess : Word) (minval : Nat) :
    Nat → List Word → Nat
  | s, [] => s
  | s, w :: ws =>
    let s1 := s + pruneCount words guess w
    if minval < s1 then s1 else scoreEarlyAux words guess minval s1 ws

/-- `guess_greedy`'s outer loop: state `(minval, argmin)` starts at
`(N*N, None)` and is updated only on strict improvement `s < minval`. -/
def guess_greedyAux (words : List Word) :
    Nat → Option Word → List Word → Option Word × Nat
  | minval, argmin, [] => (argmin, minval)
  | minval, argmin, g :: gs =>
    let s := scoreEarlyAux words g minval 0 words
    if s < minval then guess_greedyAux words s (some g) gs
    else guess_greedyAux words minval argmin gs

/-- `guess_greedy(words, guesses)` from the source (`tqdm` is the identity
here).  The returned message string carries the number `minval/N`; we
return `argmin` together with the message's numeric payload `minval`. -/
def guess_greedy (words guesses : List Word) : Option Word × Nat :=
  guess_greedyAux words (words.length * words.length) none guesses

/-- Full (never-aborted) score of one guess:
`Σ_{w ∈ words} len(prune(words, g, give_feedback(w, g)))`. -/
def scoreFull (words : List Word) (guess : Word) : Nat :=
  (words.map (pruneCount words guess)).sum

/-- The naive variant of the selector loop described by the spec: identical
state and update rule, but every guess's sum is always completed. -/
def guess_greedyNaiveAux (words : List Word) :
    Nat → Option Word → List Word → Option Word × Nat
  | minval, argmin, [] => (argmin, minval)
  | minval, argmin, g :: gs =>
    let s := scoreFull words g
    if s < minval then guess_greedyNaiveAux words s (some g) gs
    else guess_greedyNaiveAux words minval argmin gs

/-- The spec's naive exhaustive selector (no early exit). -/
def guess_greedy_naive (words guesses : List Word) : Option Word × Nat :=
  guess_greedyNaiveAux words (words.length * words.length) none guesses

/-- `letter_counts` from `loop`: the number of occurrences of `l` in
`"".join("".join(set(w)) for w in words)`, i.e. in the concatenation of
the distinct-letter collapses of the words. -/
def letter_counts (words : List Word) (l : Char) : Nat :=
  ((words.map (fun w => w.dedup)).flatten).count l

/-- `coverage(word)` from `loop`: the sum of `letter_counts` over the
distinct letters of `word`. -/
def coverage (words : List Word) (w : Word) : Nat :=
  (w.dedup.map (letter_counts words)).sum

/-- Python's `max(..., key=...)` scan: keep the current maximum, replacing
it only on a strictly greater key, so the first maximum wins. -/
def maxKeyAux (key : Word → Nat) : Word → List Word → Word
  | best, [] => best
  | best, x :: xs =>
    if key best < key x then maxKeyAux key x xs else maxKeyAux key best xs

/-- `max(words, key=coverage)`: `none` on an empty list (where Python's
`max` raises `ValueError`). -/
def maxKey (key : Word → Nat) : List Word → Option Word
  | [] => none
  | x :: xs => some (maxKeyAux key x xs)

/-- The heuristic initial guess computed at the top of `loop`:
`g = max(words, key=coverage)`. -/
def initial_guess (words : List Word) : Option Word :=
  maxKey (coverage words) words

/-! ### Elementary lemmas about `cut` and `ins` -/

theorem cut_length {s : List Char} {i : Nat} (h : i < s.length) :
    (cut s i).length = s.length - 1 := by
  induction s generalizing i with
  | nil => simp at h
  | cons x xs ih =>
    cases i with
    | zero => simp [cut]
    | succ j =>
      have hj : j < xs.length := by simpa using h
      cases xs with
      | nil => simp at hj
      | cons y ys => simp [cut, ih hj]

theorem mem_cut {s : List Char} {i : Nat} {a : Char} (h : a ∈ cut s i) : a ∈ s := by
  induction s generalizing i with
  | nil => simpa [cut] using h
  | cons x xs ih =>
    cases i with
    | zero => simp [cut] at h; simp [h]
    | succ j =>
      simp only [cut, List.mem_cons] at h ⊢
      rcases h with h | h
      · exact Or.inl h
      · exact Or.inr (ih h)

theorem cut_getElem?_lt {s : List Char} {i j : Nat} (h : j < i) :
    (cut s i)[j]? = s[j]? := by
  induction s generalizing i j with
  | nil => simp [cut]
  | cons x xs ih =>
    cases i with
    | zero => omega
    | succ k =>
      cases j with
      | zero => simp [cut]
      | succ m => simpa [cut] using ih (by omega)

theorem cut_getElem?_ge {s : List Char} {i j : Nat} (h : i ≤ j) :
    (cut s i)[j]? = s[j + 1]? := by
  induction s generalizing i j with
  | nil => simp [cut]
  | cons x xs ih =>
    cases i with
    | zero => simp [cut]
    | succ k =>
      cases j with
      | zero => omega
      | succ m => simpa [cut] using ih (by omega)

theorem ins_length (s : List Char) (i : Nat) (a : Char) :
    (ins s i a).length = s.length + 1 := by
  induction s generalizing i with
  | nil => cases i <;> simp [ins]
  | cons x xs ih =>
    cases i with
    | zero => simp [ins]
    | succ j => simp [ins, ih]

theorem mem_ins {s : List Char} {i : Nat} {a b : Char} :
    b ∈ ins s i a ↔ b = a ∨ b ∈ s := by
  induction s generalizing i with
  | nil => cases i <;> simp [ins]
  | cons x xs ih =>
    cases i with
    | zero => simp [ins]
    | succ j => simp [ins, ih]; tauto

theorem ins_getElem?_self {s : List Char} {i : Nat} (a : Char) (h : i ≤ s.length) :
    (ins s i a)[i]? = some a := by
  induction s generalizing i with
  | nil =>
    cases i with
    | zero => simp [ins]
    | succ j => simp at h
  | cons x xs ih =>
    cases i with
    | zero => simp [ins]
    | succ j => simpa [ins] using ih (by simpa using h)

theorem ins_getElem?_lt {s : List Char} {i j : Nat} {a : Char}
    (hj : j < i) (hi : i ≤ s.length) : (ins s i a)[j]? = s[j]? := by
  induction s generalizing i j with
  | nil => simp at hi; omega
  | cons x xs ih =>
    cases i with
    | zero => omega
    | succ k =>
      cases j with
      | zero => simp [ins]
      | succ m => simpa [ins] using ih (by omega) (by simpa using hi)

theorem ins_getElem?_ge {s : List Char} {i j : Nat} {a : Char} (h : i ≤ j) :
    (ins s i a)[j + 1]? = s[j]? := by
  induction s generalizing i j with
  | nil =>
    cases i with
    | zero => simp [ins]
    | succ k => cases j <;> simp [ins]
  | cons x xs ih =>
    cases i with
    | zero => simp [ins]
    | succ k =>
      cases j with
      | zero => omega
      | succ m => simpa [ins] using ih (by omega)

theorem ins_cut {s : List Char} {i : Nat} {a : Char} (h : s[i]? = some a) :
    ins (cut s i) i a = s := by
  induction s generalizing i with
  | nil => simp at h
  | cons x xs ih =>
    cases i with
    | zero =>
      simp only [List.getElem?_cons_zero, Option.some.injEq] at h
      simp [cut, ins, h]
    | succ j =>
      simp only [List.getElem?_cons_succ] at h
      cases xs with
      | nil => simp at h
      | cons y ys => simp [cut, ins, ih h]

theorem cut_ins {s : List Char} {i : Nat} {a : Char} (h : i ≤ s.length) :
    cut (ins s i a) i = s := by
  induction s generalizing i with
  | nil =>
    cases i with
    | zero => simp [ins, cut]
    | succ j => simp at h
  | cons x xs ih =>
    cases i with
    | zero => simp [ins, cut]
    | succ j => simp [ins, cut, ih (by simpa using h)]

/-! ### Characterizations of `firstMatch` and `firstHere` -/

theorem firstMatch_lt {w g : List Char} {i : Nat} (h : firstMatch w g = some i) :
    i < w.length ∧ i < g.length := by
  induction w generalizing g i with
  | nil => simp [firstMatch] at h
  | cons x xs ih =>
    cases g with
    | nil => simp [firstMatch] at h
    | cons y ys =>
      by_cases hxy : y = x
      · have hi : i = 0 := by simpa [firstMatch, hxy, eq_comm] using h
        subst hi; simp
      · simp only [firstMatch, if_neg hxy, Option.map_eq_some'] at h
        obtain ⟨j, hj, rfl⟩ := h
        have := ih hj
        simp; omega

theorem firstMatch_agree {w g : List Char} {i : Nat} (h : firstMatch w g = some i) :
    ∃ a, w[i]? = some a ∧ g[i]? = some a := by
  induction w generalizing g i with
  | nil => simp [firstMatch] at h
  | cons x xs ih =>
    cases g with
    | nil => simp [firstMatch] at h
    | cons y ys =>
      by_cases hxy : y = x
      · simp [firstMatch, hxy] at h
        subst h; exact ⟨x, by simp, by simp [hxy]⟩
      · simp only [firstMatch, if_neg hxy, Option.map_eq_some'] at h
        obtain ⟨j, hj, rfl⟩ := h
        obtain ⟨a, ha, hb⟩ := ih hj
        exact ⟨a, by simpa using ha, by simpa using hb⟩

theorem firstMatch_first {w g : List Char} {i : Nat} (h : firstMatch w g = some i) :
    ∀ k < i, ∀ a b, w[k]? = some a → g[k]? = some b → a ≠ b := by
  induction w generalizing g i with
  | nil => simp [firstMatch] at h
  | cons x xs ih =>
    cases g with
    | nil => simp [firstMatch] at h
    | cons y ys =>
      by_cases hxy : y = x
      · have hi : i = 0 := by simpa [firstMatch, hxy, eq_comm] using h
        exact fun k hk => absurd hk (by omega)
      · simp only [firstMatch, if_neg hxy, Option.map_eq_some'] at h
        obtain ⟨j, hj, rfl⟩ := h
        intro k hk a b ha hb
        cases k with
        | zero =>
          simp only [List.getElem?_cons_zero, Option.some.injEq] at ha hb
          subst ha; subst hb; exact fun hc => hxy hc.symm
        | succ m =>
          simp only [List.getElem?_cons_succ] at ha hb
          exact ih hj m (by omega) a b ha hb

theorem firstMatch_none {w g : List Char} (h : firstMatch w g = none) :
    ∀ (k : Nat) (a b : Char), w[k]? = some a → g[k]? = some b → a ≠ b := by
  induction w generalizing g with
  | nil => intro k a b ha; simp at ha
  | cons x xs ih =>
    cases g with
    | nil => intro k a b ha hb; simp at hb
    | cons y ys =>
      by_cases hxy : y = x
      · simp [firstMatch, hxy] at h
      · simp only [firstMatch, if_neg hxy, Option.map_eq_none'] at h
        intro k a b ha hb
        cases k with
        | zero =>
          simp only [List.getElem?_cons_zero, Option.some.injEq] at ha hb
          subst ha; subst hb; exact fun hc => hxy hc.symm
        | succ m =>
          simp only [List.getElem?_cons_succ] at ha hb
          exact ih h m a b ha hb

theorem firstMatch_eq_some {w g : List Char} {i : Nat} {a : Char}
    (hw : w[i]? = some a) (hg : g[i]? = some a)
    (hfirst : ∀ k < i, ∀ b c, w[k]? = some b → g[k]? = some c → b ≠ c) :
    firstMatch w g = some i := by
  induction w generalizing g i with
  | nil => simp at hw
  | cons x xs ih =>
    cases g with
    | nil => simp at hg
    | cons y ys =>
      cases i with
      | zero =>
        simp only [List.getElem?_cons_zero, Option.some.injEq] at hw hg
        subst hw; subst hg; simp [firstMatch]
      | succ j =>
        simp only [List.getElem?_cons_succ] at hw hg
        have hxy : y ≠ x := fun hc =>
          hfirst 0 (by omega) x y (by simp) (by simp) hc.symm
        have : firstMatch xs ys = some j :=
          ih hw hg (fun k hk b c hb hc =>
            hfirst (k + 1) (by omega) b c (by simpa using hb) (by simpa using hc))
        simp [firstMatch, hxy, this]

theorem firstMatch_nil_left (g : List Char) : firstMatch [] g = none := by
  cases g <;> rfl

theorem firstHere_nil_right (g : List Char) : firstHere g [] = none := by
  cases g <;> rfl

theorem firstHere_lt {g f : List Char} {i : Nat} {l : Char}
    (h : firstHere g f = some (i, l)) : i < g.length ∧ i < f.length := by
  induction g generalizing f i with
  | nil => simp [firstHere] at h
  | cons x xs ih =>
    cases f with
    | nil => simp [firstHere] at h
    | cons r fs =>
      by_cases hrh : r = HERE
      · have hi : i = 0 := by
          simp only [firstHere, if_pos hrh, Option.some.injEq, Prod.mk.injEq] at h
          exact h.1.symm
        subst hi; simp
      · simp only [firstHere, if_neg hrh, Option.map_eq_some'] at h
        obtain ⟨⟨j, l'⟩, hj, hjl⟩ := h
        obtain ⟨rfl, rfl⟩ : i = j + 1 ∧ l' = l := by
          have := hjl
          simp only [Prod.mk.injEq] at this
          exact ⟨this.1.symm, this.2⟩
        have := ih hj
        simp; omega

theorem firstHere_spec {g f : List Char} {i : Nat} {l : Char}
    (h : firstHere g f = some (i, l)) :
    g[i]? = some l ∧ f[i]? = some HERE ∧
      ∀ k < i, ∀ r, f[k]? = some r → r ≠ HERE := by
  induction g generalizing f i with
  | nil => simp [firstHere] at h
  | cons x xs ih =>
    cases f with
    | nil => simp [firstHere] at h
    | cons r fs =>
      by_cases hr : r = HERE
      · simp [firstHere, hr] at h
        obtain ⟨rfl, rfl⟩ := h
        exact ⟨by simp, by simp [hr], by omega⟩
      · simp only [firstHere, if_neg hr, Option.map_eq_some'] at h
        obtain ⟨⟨j, l'⟩, hj, hjl⟩ := h
        simp only [Prod.mk.injEq] at hjl
        obtain ⟨h1, rfl⟩ := hjl
        subst h1
        obtain ⟨h1, h2, h3⟩ := ih hj
        refine ⟨by simpa using h1, by simpa using h2, ?_⟩
        intro k hk r' hr'
        cases k with
        | zero =>
          simp only [List.getElem?_cons_zero, Option.some.injEq] at hr'
          subst hr'; exact hr
        | succ m =>
          simp only [List.getElem?_cons_succ] at hr'
          exact h3 m (by omega) r' hr'

theorem firstHere_none {g f : List Char}
    (h : firstHere g f = none) :
    ∀ (k : Nat) (l r : Char), g[k]? = some l → f[k]? = some r → r ≠ HERE := by
  induction g generalizing f with
  | nil => intro k l r hl; simp at hl
  | cons x xs ih =>
    cases f with
    | nil => intro k l r _ hr; simp at hr
    | cons r0 fs =>
      by_cases hr0 : r0 = HERE
      · simp [firstHere, hr0] at h
      · simp only [firstHere, if_neg hr0, Option.map_eq_none'] at h
        intro k l r hl hr
        cases k with
        | zero =>
          simp only [List.getElem?_cons_zero, Option.some.injEq] at hr
          subst hr; exact hr0
        | succ m =>
          simp only [List.getElem?_cons_succ] at hl hr
          exact ih h m l r hl hr

/-! ### Fuel irrelevance and unfolding equations

The recursion of `give_feedback` removes one position from `word` per
call, and that of `prune` removes one position from `feedback` per call,
so any fuel of at least that length computes the same value: the source's
recursions are well-founded on those lengths. -/

theorem give_feedbackF_eq (fuel : Nat) (w g : List Char) :
    give_feedbackF fuel w g =
      match firstMatch w g with
      | some i =>
        match fuel with
        | 0 => []
        | fuel + 1 => ins (give_feedbackF fuel (cut w i) (cut g i)) i HERE
      | none => fbNoMatch w g := by
  rw [give_feedbackF]

theorem give_feedbackF_fuel_eq :
    ∀ (f1 : Nat) {f2 : Nat} {w g : List Char}, w.length ≤ f1 → w.length ≤ f2 →
      give_feedbackF f1 w g = give_feedbackF f2 w g := by
  intro f1
  induction f1 with
  | zero =>
    intro f2 w g h1 _
    have hw : w = [] := List.eq_nil_of_length_eq_zero (Nat.le_zero.mp h1)
    subst hw
    rw [give_feedbackF_eq, give_feedbackF_eq, firstMatch_nil_left]
  | succ f ih =>
    intro f2 w g h1 h2
    rw [give_feedbackF_eq, give_feedbackF_eq]
    cases hfm : firstMatch w g with
    | none => rfl
    | some i =>
      have hi := firstMatch_lt hfm
      cases f2 with
      | zero => omega
      | succ f2' =>
        have hc : (cut w i).length = w.length - 1 := cut_length hi.1
        have e1 : give_feedbackF f (cut w i) (cut g i) =
            give_feedbackF f2' (cut w i) (cut g i) :=
          ih (by omega) (by omega)
        simp only [e1]

theorem give_feedback_eq_none {w g : List Char} (h : firstMatch w g = none) :
    give_feedback w g = fbNoMatch w g := by
  unfold give_feedback
  rw [give_feedbackF_eq, h]

theorem give_feedback_eq_some {w g : List Char} {i : Nat}
    (h : firstMatch w g = some i) :
    give_feedback w g = ins (give_feedback (cut w i) (cut g i)) i HERE := by
  have hi := firstMatch_lt h
  unfold give_feedback
  rw [give_feedbackF_eq, h]
  cases hw : w.length with
  | zero => omega
  | succ n =>
    have hc : (cut w i).length = w.length - 1 := cut_length hi.1
    have : give_feedbackF n (cut w i) (cut g i) =
        give_feedbackF (cut w i).length (cut w i) (cut g i) :=
      give_feedbackF_fuel_eq n (by omega) (by omega)
    simp only [this]

theorem pruneF_eq (fuel : Nat) (words : List Word) (guess feedback : List Char) :
    pruneF fuel words guess feedback =
      match firstHere guess feedback with
      | some (i, letter) =>
        match fuel with
        | 0 => words
        | fuel + 1 =>
          (pruneF fuel ((words.filter (fun w => w[i]? == some letter)).map
              (fun w => cut w i)) (cut guess i) (cut feedback i)).map
            (fun w => ins w i letter)
      | none => pruneNH words 0 guess feedback := by
  rw [pruneF]

theorem pruneF_fuel_eq :
    ∀ (f1 : Nat) {f2 : Nat} {words : List Word} {g f : List Char},
      f.length ≤ f1 → f.length ≤ f2 → pruneF f1 words g f = pruneF f2 words g f := by
  intro f1
  induction f1 with
  | zero =>
    intro f2 words g f h1 _
    have hf : f = [] := List.eq_nil_of_length_eq_zero (Nat.le_zero.mp h1)
    subst hf
    rw [pruneF_eq, pruneF_eq, firstHere_nil_right]
  | succ fu ih =>
    intro f2 words g f h1 h2
    rw [pruneF_eq, pruneF_eq]
    cases hfh : firstHere g f with
    | none => rfl
    | some p =>
      obtain ⟨i, letter⟩ := p
      have hi := firstHere_lt hfh
      cases f2 with
      | zero => omega
      | succ f2' =>
        have hc : (cut f i).length = f.length - 1 := cut_length hi.2
        have e1 : ∀ ws, pruneF fu ws (cut g i) (cut f i) =
            pruneF f2' ws (cut g i) (cut f i) := fun ws =>
          ih (by omega) (by omega)
        simp only [e1]

theorem prune_eq_none {words : List Word} {g f : List Char}
    (h : firstHere g f = none) :
    prune words g f = pruneNH words 0 g f := by
  unfold prune
  rw [pruneF_eq, h]

theorem prune_eq_some {words : List Word} {g f : List Char} {i : Nat} {letter : Char}
    (h : firstHere g f = some (i, letter)) :
    prune words g f =
      (prune ((words.filter (fun w => w[i]? == some letter)).map (fun w => cut w i))
          (cut g i) (cut f i)).map (fun w => ins w i letter) := by
  have hi := firstHere_lt h
  unfold prune
  rw [pruneF_eq, h]
  cases hf : f.length with
  | zero => omega
  | succ n =>
    have hc : (cut f i).length = f.length - 1 := cut_length hi.2
    have e1 : ∀ ws, pruneF n ws (cut g i) (cut f i) =
        pruneF (cut f i).length ws (cut g i) (cut f i) := fun ws =>
      pruneF_fuel_eq n (by omega) (by omega)
    simp only [e1]

/-! ### Structural facts about `give_feedback` -/

theorem fbNoMatch_length (w g : List Char) :
    (fbNoMatch w g).length = min w.length g.length := by
  simp [fbNoMatch]

theorem fbNoMatch_mem {w g : List Char} {r : Char} (h : r ∈ fbNoMatch w g) :
    r = ELSEWHERE ∨ r = NOWHERE := by
  simp only [fbNoMatch, List.mem_map] at h
  obtain ⟨p, _, hp⟩ := h
  by_cases hm : p.2 ∈ w
  · left; rw [← hp, if_pos hm]
  · right; rw [← hp, if_neg hm]

theorem fbNoMatch_getElem?_eq_some {w g : List Char} {j : Nat} {r : Char} :
    (fbNoMatch w g)[j]? = some r ↔
      ∃ a l, w[j]? = some a ∧ g[j]? = some l ∧
        r = (if l ∈ w then ELSEWHERE else NOWHERE) := by
  constructor
  · intro h
    rw [fbNoMatch, List.getElem?_map] at h
    cases hz : (w.zip g)[j]? with
    | none => rw [hz] at h; simp at h
    | some p =>
      rw [hz] at h
      simp only [Option.map_some', Option.some.injEq] at h
      have := List.getElem?_zip_eq_some.mp hz
      exact ⟨p.1, p.2, this.1, this.2, h.symm⟩
  · rintro ⟨a, l, ha, hl, rfl⟩
    rw [fbNoMatch, List.getElem?_map]
    have : (w.zip g)[j]? = some (a, l) := List.getElem?_zip_eq_some.mpr ⟨ha, hl⟩
    rw [this, Option.map_some']

theorem give_feedback_length (w g : List Char) :
    (give_feedback w g).length = min w.length g.length := by
  suffices H : ∀ (n : Nat) (w g : List Char), w.length ≤ n →
      (give_feedback w g).length = min w.length g.length from
    H w.length w g le_rfl
  intro n
  induction n with
  | zero =>
    intro w g h
    have hw : w = [] := List.eq_nil_of_length_eq_zero (Nat.le_zero.mp h)
    subst hw
    rw [give_feedback_eq_none (firstMatch_nil_left g), fbNoMatch_length]
  | succ n ih =>
    intro w g h
    cases hfm : firstMatch w g with
    | none => rw [give_feedback_eq_none hfm, fbNoMatch_length]
    | some i =>
      have hi := firstMatch_lt hfm
      have h1 : (cut w i).length = w.length - 1 := cut_length hi.1
      have h2 : (cut g i).length = g.length - 1 := cut_length hi.2
      rw [give_feedback_eq_some hfm, ins_length, ih (cut w i) (cut g i) (by omega),
        h1, h2]
      omega

theorem give_feedback_mem {w g : List Char} {r : Char} (h : r ∈ give_feedback w g) :
    r = HERE ∨ r = ELSEWHERE ∨ r = NOWHERE := by
  suffices H : ∀ (n : Nat) (w g : List Char) (r : Char), w.length ≤ n →
      r ∈ give_feedback w g → r = HERE ∨ r = ELSEWHERE ∨ r = NOWHERE from
    H w.length w g r le_rfl h
  intro n
  induction n with
  | zero =>
    intro w g r h hm
    have hw : w = [] := List.eq_nil_of_length_eq_zero (Nat.le_zero.mp h)
    subst hw
    rw [give_feedback_eq_none (firstMatch_nil_left g)] at hm
    exact Or.inr (fbNoMatch_mem hm)
  | succ n ih =>
    intro w g r h hm
    cases hfm : firstMatch w g with
    | none =>
      rw [give_feedback_eq_none hfm] at hm
      exact Or.inr (fbNoMatch_mem hm)
    | some i =>
      have hi := firstMatch_lt hfm
      rw [give_feedback_eq_some hfm] at hm
      rcases mem_ins.mp hm with hmh | hmr
      · exact Or.inl hmh
      · have h1 : (cut w i).length = w.length - 1 := cut_length hi.1
        exact ih (cut w i) (cut g i) r (by omega) hmr

/-- The first exact-position match is exactly where `give_feedback` puts its
first `HERE`: `HERE` sits at the match position and nowhere before it. -/
theorem give_feedback_here_at {w g : List Char} {i : Nat}
    (h : firstMatch w g = some i) :
    (give_feedback w g)[i]? = some HERE ∧
      ∀ k < i, ∀ r, (give_feedback w g)[k]? = some r → r ≠ HERE := by
  suffices H : ∀ (n : Nat) (w g : List Char) (i : Nat), w.length ≤ n →
      firstMatch w g = some i →
      (give_feedback w g)[i]? = some HERE ∧
        ∀ k < i, ∀ r, (give_feedback w g)[k]? = some r → r ≠ HERE from
    H w.length w g i le_rfl h
  intro n
  induction n with
  | zero =>
    intro w g i h hfm
    have hw : w = [] := List.eq_nil_of_length_eq_zero (Nat.le_zero.mp h)
    subst hw
    rw [firstMatch_nil_left] at hfm
    simp at hfm
  | succ n ih =>
    intro w g i h hfm
    have hi := firstMatch_lt hfm
    rw [give_feedback_eq_some hfm]
    have hrest : (give_feedback (cut w i) (cut g i)).length =
        min (cut w i).length (cut g i).length := give_feedback_length _ _
    have h1 : (cut w i).length = w.length - 1 := cut_length hi.1
    have h2 : (cut g i).length = g.length - 1 := cut_length hi.2
    have hilen : i ≤ (give_feedback (cut w i) (cut g i)).length := by
      rw [hrest, h1, h2]; omega
    refine ⟨ins_getElem?_self HERE hilen, ?_⟩
    intro k hk r hr
    rw [ins_getElem?_lt hk hilen] at hr
    cases hfm2 : firstMatch (cut w i) (cut g i) with
    | none =>
      rw [give_feedback_eq_none hfm2] at hr
      rcases fbNoMatch_mem (List.getElem?_mem hr) with h' | h' <;>
        { subst h'; intro hc; exact absurd hc (by decide) }
    | some j =>
      have hij : i ≤ j := by
        by_contra hij
        push_neg at hij
        obtain ⟨a, haw, hag⟩ := firstMatch_agree hfm2
        rw [cut_getElem?_lt hij] at haw
        rw [cut_getElem?_lt hij] at hag
        exact firstMatch_first hfm j hij a a haw hag rfl
      have := (ih (cut w i) (cut g i) j (by omega) hfm2).2
      exact this k (by omega) r hr

/-- When no position matches exactly, the feedback holds no `HERE` at all. -/
theorem give_feedback_no_here {w g : List Char}
    (h : firstMatch w g = none) {r : Char} (hr : r ∈ give_feedback w g) :
    r ≠ HERE := by
  rw [give_feedback_eq_none h] at hr
  rcases fbNoMatch_mem hr with h' | h' <;> { subst h'; decide }

/-- Peeling the first `HERE` of the feedback commutes with the evaluator:
for equal-length `w`, `g`, `f` whose first `HERE` sits at position `i` with
guess letter `l`, a word produces feedback `f` iff it carries `l` at
position `i` and its reduced form produces the reduced feedback. -/
theorem here_step {w g f : List Char} {i : Nat} {l : Char}
    (hfh : firstHere g f = some (i, l))
    (hlw : w.length = g.length) (hlf : g.length = f.length) :
    (w[i]? = some l ∧ give_feedback (cut w i) (cut g i) = cut f i) ↔
      give_feedback w g = f := by
  obtain ⟨hgl, hfH, hfirstH⟩ := firstHere_spec hfh
  have hi := firstHere_lt hfh
  have hiw : i < w.length := by omega
  constructor
  · rintro ⟨hwl, hrec⟩
    have hfm : firstMatch w g = some i := by
      apply firstMatch_eq_some hwl hgl
      intro k hk b c hb hc hbc
      subst hbc
      have hbw : (cut w i)[k]? = some b := by rw [cut_getElem?_lt hk]; exact hb
      have hbg : (cut g i)[k]? = some b := by rw [cut_getElem?_lt hk]; exact hc
      cases hfm2 : firstMatch (cut w i) (cut g i) with
      | none => exact firstMatch_none hfm2 k b b hbw hbg rfl
      | some j' =>
        have hj'k : ¬ k < j' := fun hkj =>
          firstMatch_first hfm2 k hkj b b hbw hbg rfl
        have hj'i : j' < i := by omega
        have hH := (give_feedback_here_at hfm2).1
        rw [hrec, cut_getElem?_lt hj'i] at hH
        exact hfirstH j' hj'i HERE hH rfl
    rw [give_feedback_eq_some hfm, hrec]
    exact ins_cut hfH
  · intro hgf
    cases hfm : firstMatch w g with
    | none =>
      exfalso
      have : HERE ∈ give_feedback w g := by
        rw [hgf]; exact List.getElem?_mem hfH
      exact give_feedback_no_here hfm this rfl
    | some j =>
      have hb := give_feedback_here_at hfm
      have hji : j = i := by
        have h1 : ¬ j < i := by
          intro hj
          have : f[j]? = some HERE := by rw [← hgf]; exact hb.1
          exact hfirstH j hj HERE this rfl
        have h2 : ¬ i < j := by
          intro hj
          have : (give_feedback w g)[i]? = some HERE := by rw [hgf]; exact hfH
          exact hb.2 i hj HERE this rfl
        omega
      subst hji
      rw [give_feedback_eq_some hfm] at hgf
      have hrl : (give_feedback (cut w j) (cut g j)).length =
          min (cut w j).length (cut g j).length := give_feedback_length _ _
      have hc1 : (cut w j).length = w.length - 1 := cut_length hiw
      have hc2 : (cut g j).length = g.length - 1 := cut_length hi.1
      have hjr : j ≤ (give_feedback (cut w j) (cut g j)).length := by
        rw [hrl, hc1, hc2]; omega
      constructor
      · obtain ⟨a, haw, hag⟩ := firstMatch_agree hfm
        rw [hgl] at hag
        rw [haw]
        exact congrArg some (Option.some.inj hag).symm
      · rw [← hgf, cut_ins hjr]

/-! ### `pruneNH` as a filter and its pointwise meaning -/

/-- The keep-condition that `pruneNH`'s sequence of filters applies to a
single word, collected into one boolean predicate. -/
def consistentNH (w : Word) : Nat → List Char → List Char → Bool
  | i, letter :: gs, result :: fs =>
    ((if result = NOWHERE then !(letter ∈ w : Bool) else true) &&
      (if result = ELSEWHERE then
        (letter ∈ w : Bool) && !(w[i]? == some letter) else true)) &&
      consistentNH w (i + 1) gs fs
  | _, _, _ => true

theorem consistentNH_cons (w : Word) (i : Nat) (letter result : Char)
    (gs fs : List Char) :
    consistentNH w i (letter :: gs) (result :: fs) =
      (((if result = NOWHERE then !(letter ∈ w : Bool) else true) &&
        (if result = ELSEWHERE then
          (letter ∈ w : Bool) && !(w[i]? == some letter) else true)) &&
        consistentNH w (i + 1) gs fs) := rfl

theorem consistentNH_nil_guess (w : Word) (i : Nat) (fs : List Char) :
    consistentNH w i [] fs = true := by
  cases fs <;> rfl

theorem consistentNH_nil_feedback (w : Word) (i : Nat) (gs : List Char) :
    consistentNH w i gs [] = true := by
  cases gs <;> rfl

theorem pruneNH_filter :
    ∀ (gs fs : List Char) (words : List Word) (i : Nat),
      pruneNH words i gs fs = words.filter (fun w => consistentNH w i gs fs) := by
  intro gs
  induction gs with
  | nil =>
    intro fs words i
    cases fs <;>
      simp only [pruneNH, consistentNH_nil_guess, List.filter_true]
  | cons letter gs' ih =>
    intro fs words i
    cases fs with
    | nil => simp only [pruneNH, consistentNH_nil_feedback, List.filter_true]
    | cons result fs' =>
      show pruneNH _ (i + 1) gs' fs' = _
      rw [ih]
      by_cases hn : result = NOWHERE
      · have he : ¬ result = ELSEWHERE := by rw [hn]; decide
        simp only [if_pos hn, if_neg he, List.filter_filter]
        apply List.filter_congr
        intro a _
        rw [consistentNH_cons, if_pos hn, if_neg he, Bool.and_true]
        exact Bool.and_comm _ _
      · by_cases he : result = ELSEWHERE
        · simp only [if_neg hn, if_pos he, List.filter_filter]
          apply List.filter_congr
          intro a _
          rw [consistentNH_cons, if_neg hn, if_pos he, Bool.true_and]
          exact Bool.and_comm _ _
        · simp only [if_neg hn, if_neg he]
          apply List.filter_congr
          intro a _
          rw [consistentNH_cons, if_neg hn, if_neg he, Bool.true_and, Bool.true_and]

theorem consistentNH_iff {w : Word} :
    ∀ {gs fs : List Char} {i : Nat},
      consistentNH w i gs fs = true ↔
        ∀ (j : Nat) (l r : Char), gs[j]? = some l → fs[j]? = some r →
          (r = NOWHERE → l ∉ w) ∧
          (r = ELSEWHERE → l ∈ w ∧ w[i + j]? ≠ some l) := by
  intro gs
  induction gs with
  | nil =>
    intro fs i
    rw [consistentNH_nil_guess]
    simp
  | cons letter gs' ih =>
    intro fs i
    cases fs with
    | nil =>
      rw [consistentNH_nil_feedback]
      simp
    | cons result fs' =>
      show (((if result = NOWHERE then !(letter ∈ w : Bool) else true) &&
        (if result = ELSEWHERE then
          (letter ∈ w : Bool) && !(w[i]? == some letter) else true)) &&
        consistentNH w (i + 1) gs' fs') = true ↔ _
      rw [Bool.and_eq_true, Bool.and_eq_true, ih]
      constructor
      · rintro ⟨⟨h1, h2⟩, hrest⟩
        intro j l r hl hr
        cases j with
        | zero =>
          simp only [List.getElem?_cons_zero, Option.some.injEq] at hl hr
          subst hl; subst hr
          constructor
          · intro hrn
            rw [if_pos hrn] at h1
            simpa using h1
          · intro hre
            rw [if_pos hre] at h2
            rw [Bool.and_eq_true] at h2
            refine ⟨by simpa using h2.1, ?_⟩
            have := h2.2
            simpa using this
        | succ m =>
          simp only [List.getElem?_cons_succ] at hl hr
          have := hrest m l r hl hr
          constructor
          · exact this.1
          · intro hre
            refine ⟨(this.2 hre).1, ?_⟩
            have h' := (this.2 hre).2
            have : i + (m + 1) = i + 1 + m := by omega
            rw [this]
            exact h'
      · intro hall
        refine ⟨⟨?_, ?_⟩, ?_⟩
        · by_cases hrn : result = NOWHERE
          · rw [if_pos hrn]
            have := (hall 0 letter result (by simp) (by simp)).1 hrn
            simpa using this
          · rw [if_neg hrn]
        · by_cases hre : result = ELSEWHERE
          · rw [if_pos hre]
            have := (hall 0 letter result (by simp) (by simp)).2 hre
            rw [Bool.and_eq_true]
            constructor
            · simpa using this.1
            · have h' := this.2
              rw [Nat.add_zero] at h'
              simpa using h'
          · rw [if_neg hre]
        · intro j l r hl hr
          have := hall (j + 1) l r (by simpa using hl) (by simpa using hr)
          refine ⟨this.1, fun hre => ⟨(this.2 hre).1, ?_⟩⟩
          have h' := (this.2 hre).2
          have heq : i + (j + 1) = i + 1 + j := by omega
          rw [heq] at h'
          exact h'

/-- With no `HERE` anywhere in a (well-formed, equal-length) feedback, a
word passes `pruneNH`'s filters iff the evaluator reproduces that exact
feedback. -/
theorem nohere_iff {w g f : List Char}
    (hfh : firstHere g f = none)
    (hlw : w.length = g.length) (hlf : g.length = f.length)
    (hv : ∀ r ∈ f, r = HERE ∨ r = ELSEWHERE ∨ r = NOWHERE) :
    consistentNH w 0 g f = true ↔ give_feedback w g = f := by
  constructor
  · intro hc
    have hRHS := consistentNH_iff.mp hc
    have hfm : firstMatch w g = none := by
      cases hfm0 : firstMatch w g with
      | none => rfl
      | some j =>
        exfalso
        obtain ⟨a, haw, hag⟩ := firstMatch_agree hfm0
        have hj := firstMatch_lt hfm0
        have hjf : j < f.length := by omega
        obtain ⟨r, hfj⟩ : ∃ r, f[j]? = some r := ⟨_, List.getElem?_eq_getElem hjf⟩
        have hrH : r ≠ HERE := firstHere_none hfh j a r hag hfj
        rcases hv r (List.getElem?_mem hfj) with h | h | h
        · exact hrH h
        · have := (hRHS j a r hag hfj).2 h
          rw [Nat.zero_add] at this
          exact this.2 haw
        · exact (hRHS j a r hag hfj).1 h (List.getElem?_mem haw)
    rw [give_feedback_eq_none hfm]
    apply List.ext_getElem?
    intro j
    by_cases hjn : j < f.length
    · have hjw : j < w.length := by omega
      have hjg : j < g.length := by omega
      obtain ⟨a, haw⟩ : ∃ a, w[j]? = some a := ⟨_, List.getElem?_eq_getElem hjw⟩
      obtain ⟨l, hgj⟩ : ∃ l, g[j]? = some l := ⟨_, List.getElem?_eq_getElem hjg⟩
      obtain ⟨r, hfj⟩ : ∃ r, f[j]? = some r := ⟨_, List.getElem?_eq_getElem hjn⟩
      have hite : (fbNoMatch w g)[j]? =
          some (if l ∈ w then ELSEWHERE else NOWHERE) :=
        fbNoMatch_getElem?_eq_some.mpr ⟨a, l, haw, hgj, rfl⟩
      rw [hite, hfj]
      congr 1
      have hrH : r ≠ HERE := firstHere_none hfh j l r hgj hfj
      rcases hv r (List.getElem?_mem hfj) with h | h | h
      · exact absurd h hrH
      · have hmem := (hRHS j l r hgj hfj).2 h
        rw [if_pos hmem.1, h]
      · have hnm := (hRHS j l r hgj hfj).1 h
        rw [if_neg hnm, h]
    · have h1 : f[j]? = none := List.getElem?_eq_none (by omega)
      have h2 : (fbNoMatch w g)[j]? = none :=
        List.getElem?_eq_none (by rw [fbNoMatch_length]; omega)
      rw [h1, h2]
  · intro hgf
    have hfm : firstMatch w g = none := by
      cases hfm0 : firstMatch w g with
      | none => rfl
      | some j =>
        exfalso
        have hb := (give_feedback_here_at hfm0).1
        rw [hgf] at hb
        have hj := firstMatch_lt hfm0
        obtain ⟨l, hgj⟩ : ∃ l, g[j]? = some l := ⟨_, List.getElem?_eq_getElem hj.2⟩
        exact firstHere_none hfh j l HERE hgj hb rfl
    rw [give_feedback_eq_none hfm] at hgf
    apply consistentNH_iff.mpr
    intro j l r hgj hfj
    rw [← hgf] at hfj
    obtain ⟨a, l', haw, hgj', hr⟩ := fbNoMatch_getElem?_eq_some.mp hfj
    rw [hgj] at hgj'
    obtain rfl : l = l' := Option.some.inj hgj'
    constructor
    · intro hrn
      subst hrn
      by_cases hm : l ∈ w
      · rw [if_pos hm] at hr
        exact absurd hr (by decide)
      · exact fun hc => hm hc
    · intro hre
      subst hre
      by_cases hm : l ∈ w
      · refine ⟨hm, ?_⟩
        rw [Nat.zero_add, haw]
        have hne := firstMatch_none hfm j a l haw hgj
        intro hc
        exact hne (Option.some.inj hc)
      · rw [if_neg hm] at hr
        exact absurd hr (by decide)

/-! ### `prune` as a filter -/

/-- Whether a single word survives `prune`: the per-word condition that
`prune`'s recursion applies, with the same fuel convention as `pruneF`. -/
def pruneKeepsF : Nat → List Char → List Char → Word → Bool
  | fuel, guess, feedback, w =>
    match firstHere guess feedback with
    | some (i, letter) =>
      match fuel with
      | 0 => true
      | fuel + 1 =>
        (w[i]? == some letter) &&
          pruneKeepsF fuel (cut guess i) (cut feedback i) (cut w i)
    | none => consistentNH w 0 guess feedback

/-- The per-word survival condition of `prune`. -/
def pruneKeeps (guess feedback : List Char) (w : Word) : Bool :=
  pruneKeepsF feedback.length guess feedback w

theorem pruneKeepsF_eq (fuel : Nat) (guess feedback : List Char) (w : Word) :
    pruneKeepsF fuel guess feedback w =
      match firstHere guess feedback with
      | some (i, letter) =>
        match fuel with
        | 0 => true
        | fuel + 1 =>
          (w[i]? == some letter) &&
            pruneKeepsF fuel (cut guess i) (cut feedback i) (cut w i)
      | none => consistentNH w 0 guess feedback := by
  rw [pruneKeepsF]

/-- `prune` never does anything but filter `words` through a fixed per-word
condition: it is order- and duplication-preserving, and whether a word is
kept depends only on the word itself (and guess/feedback). -/
theorem pruneF_filter :
    ∀ (fuel : Nat) (words : List Word) (g f : List Char),
      pruneF fuel words g f = words.filter (fun w => pruneKeepsF fuel g f w) := by
  intro fuel
  induction fuel with
  | zero =>
    intro words g f
    rw [pruneF_eq]
    cases hfh : firstHere g f with
    | none =>
      rw [pruneNH_filter]
      apply List.filter_congr
      intro a _
      rw [pruneKeepsF_eq, hfh]
    | some p =>
      obtain ⟨i, letter⟩ := p
      have hpred : (fun w => pruneKeepsF 0 g f w) = fun _ : Word => true :=
        funext fun a => by rw [pruneKeepsF_eq, hfh]
      rw [hpred, List.filter_true]
  | succ fu ih =>
    intro words g f
    rw [pruneF_eq]
    cases hfh : firstHere g f with
    | none =>
      rw [pruneNH_filter]
      apply List.filter_congr
      intro a _
      rw [pruneKeepsF_eq, hfh]
    | some p =>
      obtain ⟨i, letter⟩ := p
      dsimp only
      rw [ih, List.filter_map, List.map_map, List.filter_filter]
      have hmap : ∀ a ∈ words.filter (fun a =>
          ((fun w => pruneKeepsF fu (cut g i) (cut f i) w) ∘ fun w => cut w i) a &&
            (a[i]? == some letter)),
          ((fun w => ins w i letter) ∘ fun w => cut w i) a = id a := by
        intro a ha
        have hmem := List.mem_filter.mp ha
        have hkeep := hmem.2
        rw [Bool.and_eq_true] at hkeep
        have hai : a[i]? = some letter := beq_iff_eq.mp hkeep.2
        show ins (cut a i) i letter = a
        exact ins_cut hai
      rw [List.map_congr_left hmap, List.map_id]
      apply List.filter_congr
      intro a _
      rw [pruneKeepsF_eq, hfh]
      show (pruneKeepsF fu (cut g i) (cut f i) (cut a i) && (a[i]? == some letter)) = _
      exact Bool.and_comm _ _

theorem prune_filter (words : List Word) (g f : List Char) :
    prune words g f = words.filter (fun w => pruneKeeps g f w) :=
  pruneF_filter f.length words g f

/-- The heart of the prune/evaluator agreement: on equal-length inputs with
well-formed feedback, a word survives `prune` iff the evaluator scores it
to exactly that feedback. -/
theorem pruneKeeps_iff_feedback :
    ∀ {w g f : List Char},
      w.length = g.length → g.length = f.length →
      (∀ r ∈ f, r = HERE ∨ r = ELSEWHERE ∨ r = NOWHERE) →
      (pruneKeeps g f w = true ↔ give_feedback w g = f) := by
  suffices H : ∀ (n : Nat) (w g f : List Char), f.length ≤ n →
      w.length = g.length → g.length = f.length →
      (∀ r ∈ f, r = HERE ∨ r = ELSEWHERE ∨ r = NOWHERE) →
      (pruneKeeps g f w = true ↔ give_feedback w g = f) by
    intro w g f hlw hlf hv
    exact H f.length w g f le_rfl hlw hlf hv
  intro n
  induction n with
  | zero =>
    intro w g f hle hlw hlf hv
    have hf : f = [] := List.eq_nil_of_length_eq_zero (Nat.le_zero.mp hle)
    have hg : g = [] := List.eq_nil_of_length_eq_zero (by omega)
    have hw : w = [] := List.eq_nil_of_length_eq_zero (by omega)
    subst hf; subst hg; subst hw
    constructor
    · intro _; decide
    · intro _; decide
  | succ n ih =>
    intro w g f hle hlw hlf hv
    cases hfh : firstHere g f with
    | none =>
      have hunf : pruneKeeps g f w = consistentNH w 0 g f := by
        rw [pruneKeeps, pruneKeepsF_eq, hfh]
      rw [hunf]
      exact nohere_iff hfh hlw hlf hv
    | some p =>
      obtain ⟨i, letter⟩ := p
      have hi := firstHere_lt hfh
      obtain ⟨m, hm⟩ : ∃ m, f.length = m + 1 := ⟨f.length - 1, by omega⟩
      have hcm : (cut f i).length = m := by rw [cut_length hi.2]; omega
      have hunf : pruneKeeps g f w =
          ((w[i]? == some letter) &&
            pruneKeeps (cut g i) (cut f i) (cut w i)) := by
        rw [pruneKeeps, pruneKeepsF_eq, hfh, hm, pruneKeeps, hcm]
      rw [hunf, Bool.and_eq_true, beq_iff_eq]
      have hcw : (cut w i).length = w.length - 1 := cut_length (by omega)
      have hcg : (cut g i).length = g.length - 1 := cut_length hi.1
      have hIH := ih (cut w i) (cut g i) (cut f i) (by omega) (by omega)
        (by omega) (fun r hr => hv r (mem_cut hr))
      rw [hIH]
      exact here_step hfh hlw hlf

/-- `prune` computes exactly the consistent subset: for equal-length words,
guess and well-formed feedback, it equals the filter of `words` by
"the evaluator reproduces this feedback". -/
theorem prune_eq_filter_feedback {words : List Word} {g f : List Char}
    (hlen : ∀ w ∈ words, w.length = g.length) (hlf : g.length = f.length)
    (hv : ∀ r ∈ f, r = HERE ∨ r = ELSEWHERE ∨ r = NOWHERE) :
    prune words g f = words.filter (fun s => give_feedback s g == f) := by
  rw [prune_filter]
  apply List.filter_congr
  intro a ha
  have h1 : pruneKeeps g f a = true ↔ give_feedback a g = f :=
    pruneKeeps_iff_feedback (hlen a ha) hlf hv
  by_cases hgf : give_feedback a g = f
  · rw [h1.mpr hgf]
    exact (beq_iff_eq.mpr hgf).symm
  · have h2 : pruneKeeps g f a = false := by
      cases hb : pruneKeeps g f a
      · rfl
      · exact absurd (h1.mp hb) hgf
    have h3 : (give_feedback a g == f) = false := by
      cases hb : (give_feedback a g == f)
      · rfl
      · exact absurd (beq_iff_eq.mp hb) hgf
    rw [h2, h3]

/-- Pruning twice with the same guess and feedback changes nothing, with no
length assumptions at all: `prune` is a filter by a fixed predicate. -/
theorem prune_idem (S : List Word) (g f : List Char) :
    prune (prune S g f) g f = prune S g f := by
  rw [prune_filter S g f, prune_filter (S.filter (fun w => pruneKeeps g f w)) g f,
    List.filter_filter]
  apply List.filter_congr
  intro a _
  exact Bool.and_self _

/-! ### The early exit of `guess_greedy` is behaviour-preserving -/

theorem scoreEarlyAux_of_le {words : List Word} {g : Word} {minval : Nat} :
    ∀ {ws : List Word} {s : Nat},
      s + (ws.map (pruneCount words g)).sum ≤ minval →
      scoreEarlyAux words g minval s ws =
        s + (ws.map (pruneCount words g)).sum := by
  intro ws
  induction ws with
  | nil =>
    intro s _
    simp [scoreEarlyAux]
  | cons w ws ih =>
    intro s h
    show (if minval < s + pruneCount words g w then s + pruneCount words g w
      else scoreEarlyAux words g minval (s + pruneCount words g w) ws) = _
    simp only [List.map_cons, List.sum_cons] at h ⊢
    have hs1 : ¬ minval < s + pruneCount words g w := by omega
    rw [if_neg hs1, ih (by omega)]
    omega

theorem scoreEarlyAux_of_gt {words : List Word} {g : Word} {minval : Nat} :
    ∀ {ws : List Word} {s : Nat},
      minval < s + (ws.map (pruneCount words g)).sum →
      minval < scoreEarlyAux words g minval s ws := by
  intro ws
  induction ws with
  | nil =>
    intro s h
    simpa [scoreEarlyAux] using h
  | cons w ws ih =>
    intro s h
    show minval < (if minval < s + pruneCount words g w then s + pruneCount words g w
      else scoreEarlyAux words g minval (s + pruneCount words g w) ws)
    simp only [List.map_cons, List.sum_cons] at h
    by_cases h1 : minval < s + pruneCount words g w
    · rw [if_pos h1]; exact h1
    · rw [if_neg h1]
      exact ih (by omega)

/-- The early exit never changes the selector's state evolution: the two
loop bodies agree from any `(minval, argmin)` state. -/
theorem guess_greedyAux_eq_naive (words : List Word) :
    ∀ (gs : List Word) (minval : Nat) (argmin : Option Word),
      guess_greedyAux words minval argmin gs =
        guess_greedyNaiveAux words minval argmin gs := by
  intro gs
  induction gs with
  | nil => intro minval argmin; rfl
  | cons g gs ih =>
    intro minval argmin
    show (if scoreEarlyAux words g minval 0 words < minval then
        guess_greedyAux words (scoreEarlyAux words g minval 0 words) (some g) gs
      else guess_greedyAux words minval argmin gs) =
      (if scoreFull words g < minval then
        guess_greedyNaiveAux words (scoreFull words g) (some g) gs
      else guess_greedyNaiveAux words minval argmin gs)
    rcases le_or_lt (scoreFull words g) minval with hle | hgt
    · have he : scoreEarlyAux words g minval 0 words = scoreFull words g := by
        have := @scoreEarlyAux_of_le words g minval words 0
          (by simpa [scoreFull] using hle)
        simpa [scoreFull] using this
      rw [he]
      by_cases h2 : scoreFull words g < minval
      · rw [if_pos h2, if_pos h2, ih]
      · rw [if_neg h2, if_neg h2, ih]
    · have he : minval < scoreEarlyAux words g minval 0 words :=
        scoreEarlyAux_of_gt (by simpa [scoreFull] using hgt)
      have h1 : ¬ scoreEarlyAux words g minval 0 words < minval := by omega
      have h2 : ¬ scoreFull words g < minval := by omega
      rw [if_neg h1, if_neg h2, ih]

/-! ### The selector's state machine: no update without strict improvement,
and the first strict minimizer wins -/

theorem naiveAux_const (words : List Word) :
    ∀ (gs : List Word) (minval : Nat) (argmin : Option Word),
      (∀ g ∈ gs, minval ≤ scoreFull words g) →
      guess_greedyNaiveAux words minval argmin gs = (argmin, minval) := by
  intro gs
  induction gs with
  | nil => intro minval argmin _; rfl
  | cons g gs ih =>
    intro minval argmin h
    show (if scoreFull words g < minval then _ else _) = _
    rw [if_neg (by have := h g (by simp); omega)]
    exact ih minval argmin (fun g' hg' => h g' (by simp [hg']))

theorem naiveAux_first_min (words : List Word) :
    ∀ (gs : List Word) (minval : Nat) (argmin : Option Word),
      (∃ g ∈ gs, scoreFull words g < minval) →
      ∃ l1 gmin l2, gs = l1 ++ gmin :: l2 ∧
        scoreFull words gmin < minval ∧
        (∀ g ∈ l1, scoreFull words gmin < scoreFull words g) ∧
        (∀ g ∈ l2, scoreFull words gmin ≤ scoreFull words g) ∧
        guess_greedyNaiveAux words minval argmin gs =
          (some gmin, scoreFull words gmin) := by
  intro gs
  induction gs with
  | nil =>
    rintro minval argmin ⟨g, hg, _⟩
    simp at hg
  | cons g0 gs ih =>
    intro minval argmin hex
    by_cases h0 : scoreFull words g0 < minval
    · by_cases hex2 : ∃ g ∈ gs, scoreFull words g < scoreFull words g0
      · obtain ⟨l1, gmin, l2, hsplit, hlt, hl1, hl2, hres⟩ :=
          ih (scoreFull words g0) (some g0) hex2
        refine ⟨g0 :: l1, gmin, l2, by rw [hsplit]; rfl, by omega, ?_, hl2, ?_⟩
        · intro g hg
          rcases List.mem_cons.mp hg with rfl | hg
          · exact hlt
          · exact hl1 g hg
        · show (if scoreFull words g0 < minval then _ else _) = _
          rw [if_pos h0]
          exact hres
      · push_neg at hex2
        refine ⟨[], g0, gs, rfl, h0, by simp, hex2, ?_⟩
        show (if scoreFull words g0 < minval then _ else _) = _
        rw [if_pos h0]
        exact naiveAux_const words gs (scoreFull words g0) (some g0) hex2
    · have hex3 : ∃ g ∈ gs, scoreFull words g < minval := by
        obtain ⟨g, hg, hlt⟩ := hex
        rcases List.mem_cons.mp hg with rfl | hg
        · omega
        · exact ⟨g, hg, hlt⟩
      obtain ⟨l1, gmin, l2, hsplit, hlt, hl1, hl2, hres⟩ := ih minval argmin hex3
      refine ⟨g0 :: l1, gmin, l2, by rw [hsplit]; rfl, hlt, ?_, hl2, ?_⟩
      · intro g hg
        rcases List.mem_cons.mp hg with rfl | hg
        · omega
        · exact hl1 g hg
      · show (if scoreFull words g0 < minval then _ else _) = _
        rw [if_neg h0]
        exact hres

/-! ### The coverage heuristic: Python `max` keeps the first maximum -/

theorem maxKeyAux_const (key : Word → Nat) :
    ∀ (xs : List Word) (best : Word), (∀ x ∈ xs, key x ≤ key best) →
      maxKeyAux key best xs = best := by
  intro xs
  induction xs with
  | nil => intro best _; rfl
  | cons x xs ih =>
    intro best h
    show (if key best < key x then _ else _) = _
    rw [if_neg (by have := h x (by simp); omega)]
    exact ih best (fun x' hx' => h x' (by simp [hx']))

theorem maxKeyAux_first_max (key : Word → Nat) :
    ∀ (xs : List Word) (best : Word),
      ∃ l1 gmax l2, best :: xs = l1 ++ gmax :: l2 ∧
        maxKeyAux key best xs = gmax ∧
        (∀ x ∈ l1, key x < key gmax) ∧
        (∀ x ∈ l2, key x ≤ key gmax) := by
  intro xs
  induction xs with
  | nil =>
    intro best
    exact ⟨[], best, [], rfl, rfl, by simp, by simp⟩
  | cons x xs ih =>
    intro best
    by_cases h : key best < key x
    · obtain ⟨l1, gmax, l2, hsplit, hres, hl1, hl2⟩ := ih x
      have hxg : key x ≤ key gmax := by
        cases l1 with
        | nil =>
          injection hsplit with h1 _
          rw [h1]
        | cons a l1' =>
          injection hsplit with h1 _
          exact le_of_lt (hl1 x (by rw [h1]; simp))
      refine ⟨best :: l1, gmax, l2, by rw [List.cons_append, ← hsplit], ?_, ?_, hl2⟩
      · show (if key best < key x then _ else _) = _
        rw [if_pos h]
        exact hres
      · intro y hy
        rcases List.mem_cons.mp hy with rfl | hy
        · omega
        · exact hl1 y hy
    · obtain ⟨l1, gmax, l2, hsplit, hres, hl1, hl2⟩ := ih best
      cases l1 with
      | nil =>
        injection hsplit with h1 h2
        refine ⟨[], best, x :: xs, rfl, ?_, by simp, ?_⟩
        · show (if key best < key x then _ else _) = _
          rw [if_neg h, hres, ← h1]
        · intro y hy
          rcases List.mem_cons.mp hy with rfl | hy
          · omega
          · rw [h1]
            exact hl2 y (by rw [← h2]; exact hy)
      | cons a l1' =>
        injection hsplit with h1 h2
        refine ⟨best :: x :: l1', gmax, l2, ?_, ?_, ?_, hl2⟩
        · rw [List.cons_append, List.cons_append, h2]
          rfl
        · show (if key best < key x then _ else _) = _
          rw [if_neg h]
          exact hres
        · have hbg : key best < key gmax := by
            rw [h1]
            exact hl1 a (by simp)
          intro y hy
          rcases List.mem_cons.mp hy with rfl | hy
          · exact hbg
          rcases List.mem_cons.mp hy with rfl | hy
          · omega
          · exact hl1 y (by simp [hy])

/-- The coverage table entry of a letter counts exactly the words of the
list that contain that letter at least once. -/
theorem letter_counts_eq (words : List Word) (l : Char) :
    letter_counts words l = (words.filter (fun v => (l ∈ v : Bool))).length := by
  unfold letter_counts
  induction words with
  | nil => simp
  | cons v ws ih =>
    simp only [List.map_cons, List.flatten_cons, List.count_append]
    rw [ih, List.count_dedup, List.filter_cons]
    by_cases hm : l ∈ v
    · rw [if_pos hm, if_pos (by simpa using hm)]
      simp [Nat.add_comm]
    · rw [if_neg hm, if_neg (by simpa using hm)]
      omega

/-- `coverage` is the claimed score: the sum, over a word's distinct
letters, of the number of list words containing that letter. -/
theorem coverage_eq (words : List Word) (w : Word) :
    coverage words w =
      (w.dedup.map (fun l => (words.filter (fun v => (l ∈ v : Bool))).length)).sum := by
  unfold coverage
  exact congrArg List.sum
    (List.map_congr_left (fun l _ => letter_counts_eq words l))

/-! ### The claims -/

/-- Claim C1: for every collection of words S, guess g, and feedback
sequence f, all of equal length L (f drawn from the three feedback
symbols), `prune S g f` equals exactly the subset of S of words that the
evaluator scores against g to exactly f — including the duplicate-letter
edge cases, since the equivalence is proved for every well-formed f. -/
theorem claimC1 (S : List Word) (g f : List Char) (L : Nat)
    (hS : ∀ w ∈ S, w.length = L) (hg : g.length = L) (hf : f.length = L)
    (hv : ∀ r ∈ f, r = HERE ∨ r = ELSEWHERE ∨ r = NOWHERE) :
    prune S g f = S.filter (fun s => give_feedback s g == f) :=
  prune_eq_filter_feedback (fun w hw => by rw [hS w hw, hg]) (by omega) hv

/-- Claim C1, instantiated: a three-word dictionary of length-2 words with
guess "AC" and feedback "hn" keeps exactly the words scoring "hn". -/
theorem claimC1_witness :
    ((∀ w ∈ ([['A','B'], ['B','A'], ['C','A']] : List Word), w.length = 2) ∧
      (['A','C'] : List Char).length = 2 ∧
      ([HERE, NOWHERE] : List Char).length = 2 ∧
      (∀ r ∈ ([HERE, NOWHERE] : List Char),
        r = HERE ∨ r = ELSEWHERE ∨ r = NOWHERE)) ∧
    prune [['A','B'], ['B','A'], ['C','A']] ['A','C'] [HERE, NOWHERE] =
      List.filter (fun s => give_feedback s ['A','C'] == [HERE, NOWHERE])
        [['A','B'], ['B','A'], ['C','A']] :=
  ⟨⟨by decide, by decide, by decide, by decide⟩,
    claimC1 _ _ _ 2 (by decide) (by decide) (by decide) (by decide)⟩

/-- Claim C3, counterexample to the claimed fatal precondition failure: with
a non-empty words list and an empty guess pool, `guess_greedy` completes
normally and returns a value — the pair `(none, N*N)` (in the source,
`(None, message)`), not a failure. -/
theorem claimC3_counterexample :
    guess_greedy [['A','B']] [] = (none, 1) := by decide

/-- Claim C3, amended: an empty `guess_pool` is indeed not handled
internally, but it is not surfaced as a failure either — for any non-empty
`words`, `guess_greedy words []` returns normally with no guess selected
(`argmin = None`) and the score left at its `N*N` sentinel, leaving the
contract violation for the caller to notice. -/
theorem claimC3_amended (words : List Word) (h : words ≠ []) :
    guess_greedy words [] = (none, words.length * words.length) := rfl

/-- Claim C3, amended, instantiated at a one-word list. -/
theorem claimC3_witness :
    ([['A','B']] : List Word) ≠ [] ∧ guess_greedy [['A','B']] [] = (none, 1) :=
  ⟨by decide, claimC3_amended [['A','B']] (by decide)⟩

/-- Claim C2: the early-exit optimization is behaviour-preserving — for
non-empty `words` and guess pool, `guess_greedy` (with the partial-sum
abort) returns the same selected guess and the same reported minimal
score as the naive variant that always completes the full summation. -/
theorem claimC2 (words guesses : List Word) (h1 : words ≠ []) (h2 : guesses ≠ []) :
    guess_greedy words guesses = guess_greedy_naive words guesses :=
  guess_greedyAux_eq_naive words guesses (words.length * words.length) none

/-- Claim C2, instantiated. -/
theorem claimC2_witness :
    (([['A','B'], ['B','A']] : List Word) ≠ [] ∧
      ([['A','B']] : List Word) ≠ []) ∧
    guess_greedy [['A','B'], ['B','A']] [['A','B']] =
      guess_greedy_naive [['A','B'], ['B','A']] [['A','B']] :=
  ⟨⟨by decide, by decide⟩,
    claimC2 [['A','B'], ['B','A']] [['A','B']] (by decide) (by decide)⟩

/-- Claim C4, counterexample to the universal tie-break: with
`words = ["AB","BA"]` and pool `["CC","DD"]`, both guesses have the equal
minimal score 4 (which also equals the `N*N` sentinel), yet the selector
returns no guess at all (`argmin = None`) instead of the earlier guess
"CC", because `s < minval` never holds. -/
theorem claimC4_counterexample :
    scoreFull [['A','B'], ['B','A']] ['C','C'] = 4 ∧
    scoreFull [['A','B'], ['B','A']] ['D','D'] = 4 ∧
    (∀ g ∈ ([['C','C'], ['D','D']] : List Word),
      4 ≤ scoreFull [['A','B'], ['B','A']] g) ∧
    guess_greedy [['A','B'], ['B','A']] [['C','C'], ['D','D']] = (none, 4) := by
  decide

/-- Claim C4, amended: `guess_greedy` is deterministic (it is a pure
function of its arguments), and whenever some guess in the pool scores
strictly below the `N*N` sentinel, the guess returned is exactly the
first one in the pool attaining the minimal score (earlier entries score
strictly higher, later ones at least as high), together with that score;
when no guess beats the sentinel, no guess is selected at all. -/
theorem claimC4 (words pool : List Word)
    (h : ∃ g ∈ pool, scoreFull words g < words.length * words.length) :
    ∃ l1 gmin l2, pool = l1 ++ gmin :: l2 ∧
      guess_greedy words pool = (some gmin, scoreFull words gmin) ∧
      (∀ g ∈ l1, scoreFull words gmin < scoreFull words g) ∧
      (∀ g ∈ l2, scoreFull words gmin ≤ scoreFull words g) := by
  obtain ⟨l1, gmin, l2, hsplit, _, hl1, hl2, hres⟩ :=
    naiveAux_first_min words pool (words.length * words.length) none h
  refine ⟨l1, gmin, l2, hsplit, ?_, hl1, hl2⟩
  show guess_greedyAux words (words.length * words.length) none pool = _
  rw [guess_greedyAux_eq_naive]
  exact hres

/-- Claim C4, amended, instantiated. -/
theorem claimC4_witness :
    (∃ g ∈ ([['A','B']] : List Word),
      scoreFull [['A','B'], ['B','A']] g <
        ([['A','B'], ['B','A']] : List Word).length *
          ([['A','B'], ['B','A']] : List Word).length) ∧
    (∃ l1 gmin l2, ([['A','B']] : List Word) = l1 ++ gmin :: l2 ∧
      guess_greedy [['A','B'], ['B','A']] [['A','B']] =
        (some gmin, scoreFull [['A','B'], ['B','A']] gmin) ∧
      (∀ g ∈ l1, scoreFull [['A','B'], ['B','A']] gmin <
        scoreFull [['A','B'], ['B','A']] g) ∧
      (∀ g ∈ l2, scoreFull [['A','B'], ['B','A']] gmin ≤
        scoreFull [['A','B'], ['B','A']] g)) :=
  ⟨by decide, claimC4 [['A','B'], ['B','A']] [['A','B']] (by decide)⟩

/-- Claim C5: on the documented duplicate-letter example, guess "EE"
against word "EX" scores `[HERE, NOWHERE]` — the second E is `NOWHERE`,
not `ELSEWHERE`, because the word's only E is consumed by the
exact-position match. -/
theorem claimC5 : give_feedback ['E', 'X'] ['E', 'E'] = [HERE, NOWHERE] := by
  decide

/-- Claim C6: for a non-empty words collection, the coverage heuristic
returns the word maximizing the sum, over its distinct letters, of the
number of words of the collection containing that letter at least once
(each word counted once per distinct letter), ties broken by earliest
position in the collection: every earlier word scores strictly less and
every later word at most as much. -/
theorem claimC6 (words : List Word) (h : words ≠ []) :
    (∀ w : Word, coverage words w =
      (w.dedup.map
        (fun l => (words.filter (fun v => (l ∈ v : Bool))).length)).sum) ∧
    ∃ l1 gbest l2, words = l1 ++ gbest :: l2 ∧
      initial_guess words = some gbest ∧
      (∀ w ∈ l1, coverage words w < coverage words gbest) ∧
      (∀ w ∈ l2, coverage words w ≤ coverage words gbest) := by
  refine ⟨fun w => coverage_eq words w, ?_⟩
  cases words with
  | nil => exact absurd rfl h
  | cons w0 rest =>
    obtain ⟨l1, gmax, l2, hsplit, hres, hl1, hl2⟩ :=
      maxKeyAux_first_max (coverage (w0 :: rest)) rest w0
    exact ⟨l1, gmax, l2, hsplit, congrArg some hres, hl1, hl2⟩

/-- Claim C6, instantiated on a three-word dictionary. -/
theorem claimC6_witness :
    ([['A','B'], ['B','C'], ['C','A']] : List Word) ≠ [] ∧
    ((∀ w : Word, coverage [['A','B'], ['B','C'], ['C','A']] w =
      (w.dedup.map (fun l =>
        (([['A','B'], ['B','C'], ['C','A']] : List Word).filter
          (fun v => (l ∈ v : Bool))).length)).sum) ∧
    ∃ l1 gbest l2, ([['A','B'], ['B','C'], ['C','A']] : List Word) =
        l1 ++ gbest :: l2 ∧
      initial_guess [['A','B'], ['B','C'], ['C','A']] = some gbest ∧
      (∀ w ∈ l1, coverage [['A','B'], ['B','C'], ['C','A']] w <
        coverage [['A','B'], ['B','C'], ['C','A']] gbest) ∧
      (∀ w ∈ l2, coverage [['A','B'], ['B','C'], ['C','A']] w ≤
        coverage [['A','B'], ['B','C'], ['C','A']] gbest)) :=
  ⟨by decide, claimC6 [['A','B'], ['B','C'], ['C','A']] (by decide)⟩

/-- Claim C7: pruning is idempotent on equal-length inputs (it holds in
fact for all inputs, by `prune_idem`). -/
theorem claimC7 (S : List Word) (g f : List Char) (L : Nat)
    (hS : ∀ w ∈ S, w.length = L) (hg : g.length = L) (hf : f.length = L) :
    prune (prune S g f) g f = prune S g f :=
  prune_idem S g f

/-- Claim C7, instantiated. -/
theorem claimC7_witness :
    ((∀ w ∈ ([['A','B'], ['B','A']] : List Word), w.length = 2) ∧
      (['A','C'] : List Char).length = 2 ∧
      ([ELSEWHERE, NOWHERE] : List Char).length = 2) ∧
    prune (prune [['A','B'], ['B','A']] ['A','C'] [ELSEWHERE, NOWHERE])
        ['A','C'] [ELSEWHERE, NOWHERE] =
      prune [['A','B'], ['B','A']] ['A','C'] [ELSEWHERE, NOWHERE] :=
  ⟨⟨by decide, by decide, by decide⟩,
    claimC7 _ _ _ 2 (by decide) (by decide) (by decide)⟩

/-- Claim C8: feedback is well-formed — on words of equal length L the
feedback sequence has length exactly L and every symbol is one of `HERE`,
`ELSEWHERE`, `NOWHERE`. -/
theorem claimC8 (w g : List Char) (L : Nat) (hw : w.length = L)
    (hg : g.length = L) :
    (give_feedback w g).length = L ∧
      ∀ r ∈ give_feedback w g, r = HERE ∨ r = ELSEWHERE ∨ r = NOWHERE :=
  ⟨by rw [give_feedback_length, hw, hg, Nat.min_self],
    fun _ hr => give_feedback_mem hr⟩

/-- Claim C8, instantiated at the duplicate-letter example. -/
theorem claimC8_witness :
    ((['E','X'] : List Char).length = 2 ∧ (['E','E'] : List Char).length = 2) ∧
    (give_feedback ['E','X'] ['E','E']).length = 2 ∧
    (∀ r ∈ give_feedback ['E','X'] ['E','E'],
      r = HERE ∨ r = ELSEWHERE ∨ r = NOWHERE) :=
  ⟨⟨by decide, by decide⟩, claimC8 ['E','X'] ['E','E'] 2 (by decide) (by decide)⟩

/-- Claim C9: the recursions of `give_feedback` and `prune` are
well-founded on the word (resp. feedback) length — each recursive call
removes one position, so any fuel of at least that length computes the
same value, i.e. both functions terminate on all inputs with recursion
depth bounded by that length. -/
theorem claimC9 (fuelW fuelP : Nat) (w g f : List Char) (words : List Word)
    (hW : w.length ≤ fuelW) (hP : f.length ≤ fuelP) :
    give_feedbackF fuelW w g = give_feedback w g ∧
      pruneF fuelP words g f = prune words g f :=
  ⟨give_feedbackF_fuel_eq fuelW hW le_rfl, pruneF_fuel_eq fuelP hP le_rfl⟩

/-- Claim C9, instantiated: excess fuel does not change either result. -/
theorem claimC9_witness :
    ((['E','X'] : List Char).length ≤ 7 ∧
      ([HERE, NOWHERE] : List Char).length ≤ 9) ∧
    give_feedbackF 7 ['E','X'] ['E','E'] = give_feedback ['E','X'] ['E','E'] ∧
    pruneF 9 [['A','B']] ['E','E'] [HERE, NOWHERE] =
      prune [['A','B']] ['E','E'] [HERE, NOWHERE] :=
  ⟨⟨by decide, by decide⟩,
    claimC9 7 9 ['E','X'] ['E','E'] [HERE, NOWHERE] [['A','B']]
      (by decide) (by decide)⟩

/-- Claim C10: on words of unequal length the evaluator does not fail — it
returns a feedback sequence of length `min |word| |guess|`, the positional
pairing stopping at the shorter input. -/
theorem claimC10 (w g : List Char) (h : w.length ≠ g.length) :
    (give_feedback w g).length = min w.length g.length :=
  give_feedback_length w g

/-- Claim C10, instantiated: a 3-letter word against a 2-letter guess. -/
theorem claimC10_witness :
    (['A','B','C'] : List Char).length ≠ (['B','A'] : List Char).length ∧
    (give_feedback ['A','B','C'] ['B','A']).length =
      min (['A','B','C'] : List Char).length (['B','A'] : List Char).length :=
  ⟨by decide, claimC10 ['A','B','C'] ['B','A'] (by decide)⟩

end Wordle
